import Mathlib

/-!
Shallow embedding of the serializer core of gin-rest-framework
(`pkg/serializers/model.go` and the `models`/`serializers` sources),
together with proofs about its field-level transformation behaviour.

Go maps are embedded as association lists in a fixed iteration order
(Go's map iteration order is unspecified; every theorem below is stated
so that it holds, or its counterexample fails, in every order, which the
list order makes explicit).  Go `any` values are embedded as the
inductive `Value`.  The `*gin.Context` parameter threaded through the Go
code is never inspected by any of the embedded functions and is dropped.
Fallible Go functions returning `(T, error)` become `Except String T`;
`logrus.Fatalf` (process abort) becomes the `FatalError` outcome of an
`Except`.
-/

namespace Grf

/-- Embedding of Go `any` values that flow through the serializer. -/
inductive Value where
  | vNil : Value
  | vStr : String → Value
  | vInt : Int → Value
  | vBool : Bool → Value
deriving DecidableEq, Repr

/-- A Go `map[string]any`, embedded as an association list in iteration
order.  Used both for raw wire maps and for `models.InternalValue`. -/
abbrev WireMap := List (String × Value)

/-- Lookup in an association list; `none` models a missing key.  Go map
indexing `m[k]` on a missing key yields the zero value (`nil` for `any`),
which callers recover with `lookupOrNil`. -/
def lookupList {α : Type} (xs : List (String × α)) (k : String) : Option α :=
  match xs with
  | [] => none
  | (k₁, v) :: rest => if k₁ = k then some v else lookupList rest k

/-- Go `m[k]` on a `map[string]any`: the zero value `nil` when absent. -/
def lookupOrNil (xs : WireMap) (k : String) : Value :=
  (lookupList xs k).getD Value.vNil

/-- `types.ConvertFunc`: `func(any) (any, error)`. -/
abbrev ConvertFunc := Value → Except String Value

/-- `types.ConvertPassThrough`.  Modelled from the spec: the `types`
package is not among the sources; the spec calls this the "identity
pass-through" conversion, returning its input unchanged with no error. -/
def ConvertPassThrough : ConvertFunc := fun v => Except.ok v

/-- `fields.RepresentationFunc`: `func(intVal, name, ctx) (any, error)`. -/
abbrev RepresentationFunc := WireMap → String → Except String Value

/-- `fields.InternalValueFunc`: `func(reprModel, name, ctx) (any, error)`. -/
abbrev InternalValueFunc := WireMap → String → Except String Value

/-- `ConvertFuncToRepresentationFuncAdapter` (model.go lines 166-170):
apply the convert function to `intVal[name]`. -/
def ConvertFuncToRepresentationFuncAdapter (cf : ConvertFunc) : RepresentationFunc :=
  fun intVal name => cf (lookupOrNil intVal name)

/-- `ConvertFuncToInternalValueFuncAdapter` (model.go lines 172-176):
apply the convert function to `reprModel[name]`. -/
def ConvertFuncToInternalValueFuncAdapter (cf : ConvertFunc) : InternalValueFunc :=
  fun reprModel name => cf (lookupOrNil reprModel name)

/-- `fields.Field[Model]`.  Modelled from the spec: the `fields` package
is not among the sources.  Per spec §3 a Field carries a wire name,
independent `readable`/`writable` booleans, and the conversion pair
(`toRepresentation`, `toInternalValue`) plus a storage-side conversion.
`model.go` accesses `field.Writable`, `field.Readable`, `field.Name()`,
`field.ToInternalValue(raw, ctx)` and `field.ToRepresentation(intVal,
ctx)`; the older `serializers` source calls the stored functions as
`field.InternalValueFunc(raw, k)` with the registry key `k`. -/
structure Field where
  Name : String
  Readable : Bool
  Writable : Bool
  internalValueFunc : InternalValueFunc
  representationFunc : RepresentationFunc
  fromDBFunc : InternalValueFunc

/-- `fields.NewField`.  Modelled from the spec: defaults are
readable/writable true (spec §3 "defaults true/true unless overridden")
with pass-through conversions until the detected ones are attached. -/
def NewField (name : String) : Field :=
  { Name := name
    Readable := true
    Writable := true
    internalValueFunc := ConvertFuncToInternalValueFuncAdapter ConvertPassThrough
    representationFunc := ConvertFuncToRepresentationFuncAdapter ConvertPassThrough
    fromDBFunc := ConvertFuncToInternalValueFuncAdapter ConvertPassThrough }

/-- `Field.WithRepresentationFunc` builder (modelled from the spec,
`fields` package). -/
def Field.WithRepresentationFunc (f : Field) (g : RepresentationFunc) : Field :=
  { f with representationFunc := g }

/-- `Field.WithInternalValueFunc` builder (modelled from the spec,
`fields` package). -/
def Field.WithInternalValueFunc (f : Field) (g : InternalValueFunc) : Field :=
  { f with internalValueFunc := g }

/-- `serializers.ValidationError`: field name → list of messages. -/
structure ValidationError where
  FieldErrors : List (String × List String)
deriving DecidableEq, Repr

/-- A `logrus.Fatalf` call: aborts the process with a message. -/
structure FatalError where
  msg : String
deriving DecidableEq, Repr

/-- `serializers.ModelSerializer[Model]`: the field registry.  The Go
`map[string]*fields.Field[Model]` is keyed by the field's name (both
registration paths use `field.Name()` resp. the name string as the key),
so it is embedded as a list of Fields looked up by `Name`. -/
structure ModelSerializer where
  Fields : List Field

/-- Lookup of a field by registry key in a list of fields. -/
def findFieldList (k : String) : List Field → Option Field
  | [] => none
  | f :: rest => if f.Name = k then some f else findFieldList k rest

/-- Go `s.Fields[k]`: first field whose registry key (= name) is `k`. -/
def findField (s : ModelSerializer) (k : String) : Option Field :=
  findFieldList k s.Fields

/-- The `existingFields` slice built inside `ToInternalValue`:
`field.Name()` for every registered field, in registry order. -/
def existingFieldNames (s : ModelSerializer) : List String :=
  s.Fields.map Field.Name

/-- The message produced for a superfluous input key (model.go line 46). -/
def unknownFieldMsg (field : String) (existing : List String) : String :=
  "Field `" ++ field ++ "` is not accepted by this endpoint, accepted fields: "
    ++ String.intercalate ", " existing

/-- The loop of `ModelSerializer.ToInternalValue` (model.go lines 22-50),
iterating over the keys of `raw` while accumulating the produced internal
value entries (`intVMap`) and the unknown keys (`superfluousFields`). -/
def ToInternalValueLoop (s : ModelSerializer) (raw : WireMap) :
    List String → WireMap → List String → Except ValidationError WireMap
  | [], intVMap, superfluous =>
    if superfluous.isEmpty then
      Except.ok intVMap
    else
      Except.error
        ⟨superfluous.map fun k => (k, [unknownFieldMsg k (existingFieldNames s)])⟩
  | k :: rest, intVMap, superfluous =>
    match findField s k with
    | none => ToInternalValueLoop s raw rest intVMap (superfluous ++ [k])
    | some field =>
      if field.Writable then
        match field.internalValueFunc raw k with
        | Except.error e => Except.error ⟨[(k, [e])]⟩
        | Except.ok intV => ToInternalValueLoop s raw rest (intVMap ++ [(k, intV)]) superfluous
      else
        ToInternalValueLoop s raw rest intVMap superfluous

/-- `ModelSerializer.ToInternalValue` (model.go lines 21-51). -/
def ModelSerializer.ToInternalValue (s : ModelSerializer) (raw : WireMap) :
    Except ValidationError WireMap :=
  ToInternalValueLoop s raw (raw.map Prod.fst) [] []

/-- The error-wrapping message of `ToRepresentation` (model.go line 62). -/
def representationFailMsg (name msg : String) : String :=
  "Failed to serialize field `" ++ name ++ "` to representation: " ++ msg

/-- The loop of `ModelSerializer.ToRepresentation` (model.go lines
54-67), iterating over the registered fields. -/
def ToRepresentationLoop (intVal : WireMap) :
    List Field → WireMap → Except String WireMap
  | [], raw => Except.ok raw
  | field :: rest, raw =>
    if field.Readable then
      match field.representationFunc intVal field.Name with
      | Except.error e => Except.error (representationFailMsg field.Name e)
      | Except.ok value => ToRepresentationLoop intVal rest (raw ++ [(field.Name, value)])
    else
      ToRepresentationLoop intVal rest raw

/-- `ModelSerializer.ToRepresentation` (model.go lines 53-69). -/
def ModelSerializer.ToRepresentation (s : ModelSerializer) (intVal : WireMap) :
    Except String WireMap :=
  ToRepresentationLoop intVal s.Fields []

/-- `ModelSerializer.WithNewField` (model.go lines 92-95): insert or
overwrite by name.  List semantics: replace every field of that name, or
append when absent. -/
def ModelSerializer.WithNewField (s : ModelSerializer) (field : Field) : ModelSerializer :=
  if (s.Fields.map Field.Name).contains field.Name then
    ⟨s.Fields.map fun f => if f.Name = field.Name then field else f⟩
  else
    ⟨s.Fields ++ [field]⟩

/-- `ModelSerializer.WithField` (model.go lines 97-105): look up the
field by name, `logrus.Fatalf` when it is absent, otherwise apply the
update function to the stored field (in place, via pointer). -/
def ModelSerializer.WithField (s : ModelSerializer) (name : String)
    (updateFunc : Field → Field) : Except FatalError ModelSerializer :=
  match findField s name with
  | none =>
    Except.error ⟨"Could not find field `" ++ name
      ++ "` on model when registering serializer field"⟩
  | some _ =>
    Except.ok ⟨s.Fields.map fun f => if f.Name = name then updateFunc f else f⟩

/-- `ModelSerializer.FromDB` (model.go lines 71-86): like
`ToInternalValue` but unknown keys are skipped silently and a conversion
failure aborts with a wrapped plain error. -/
def FromDBLoop (s : ModelSerializer) (raw : WireMap) :
    List String → WireMap → Except String WireMap
  | [], intVMap => Except.ok intVMap
  | k :: rest, intVMap =>
    match findField s k with
    | none => FromDBLoop s raw rest intVMap
    | some field =>
      match field.fromDBFunc raw k with
      | Except.error e =>
        Except.error ("Failed to serialize field `" ++ k ++ "` from database: " ++ e)
      | Except.ok intV => FromDBLoop s raw rest (intVMap ++ [(k, intV)])

/-- `ModelSerializer.FromDB` entry point. -/
def ModelSerializer.FromDB (s : ModelSerializer) (raw : WireMap) :
    Except String WireMap :=
  FromDBLoop s raw (raw.map Prod.fst) []

/-- `types.FieldTypeMapper`.  Modelled from the spec: the `types` package
is not among the sources.  Per spec §4.3(2) it is "a registry from
reflected type identity to conversion function pair"; its two fallible
accessors are keyed by the attribute's type string. -/
structure FieldTypeMapper where
  ToRepresentation : String → Except String ConvertFunc
  ToInternalValue : String → Except String ConvertFunc

/-- `ModelSerializer.WithExistingFields` (older serializers source, lines
204-242 of that file): rebuild the field registry for the passed field
names.  An unknown attribute name is fatal; a FieldTypeMapper detection
failure is logged (`logrus.Debugf`) and degrades to
`types.ConvertPassThrough`.  `attributeTypes` stands for
`DetectAttributes(m)` (the reflected json-tag → type-string map) and is
passed explicitly because reflection has no shallow embedding.  The
trailing reflection pass over model attributes implementing
`FieldUpdater` is embedded as the explicit `updaters` list (json tag →
update function), applied to the registered field of that tag when one
exists. -/
def WithExistingFieldsLoop (ftm : FieldTypeMapper)
    (attributeTypes : List (String × String)) :
    List String → List Field → Except FatalError (List Field)
  | [], acc => Except.ok acc
  | field :: rest, acc =>
    match lookupList attributeTypes field with
    | none =>
      Except.error ⟨"Could not find field `" ++ field
        ++ "` on model when registering serializer field"⟩
    | some attributeType =>
      let toRepresentation :=
        match ftm.ToRepresentation attributeType with
        | Except.error _ => ConvertPassThrough
        | Except.ok cf => cf
      let toInternalValue :=
        match ftm.ToInternalValue attributeType with
        | Except.error _ => ConvertPassThrough
        | Except.ok cf => cf
      WithExistingFieldsLoop ftm attributeTypes rest
        (acc ++ [((NewField field).WithRepresentationFunc
            (ConvertFuncToRepresentationFuncAdapter toRepresentation)).WithInternalValueFunc
            (ConvertFuncToInternalValueFuncAdapter toInternalValue)])

/-- `ModelSerializer.WithExistingFields` entry point (see
`WithExistingFieldsLoop`). -/
def ModelSerializer.WithExistingFields (ftm : FieldTypeMapper)
    (attributeTypes : List (String × String)) (passedFields : List String)
    (updaters : List (String × (Field → Field))) :
    Except FatalError ModelSerializer :=
  match WithExistingFieldsLoop ftm attributeTypes passedFields [] with
  | Except.error e => Except.error e
  | Except.ok flds =>
    Except.ok ⟨updaters.foldl
      (fun fs (u : String × (Field → Field)) =>
        if (fs.map Field.Name).contains u.1 then
          fs.map fun f => if f.Name = u.1 then u.2 f else f
        else fs)
      flds⟩

/-- A conversion provider of the detection chain.  Modelled from the
spec: the chaining detectors built in `WithModelFields`
(`NewChainingToRepresentationDetector` /
`NewChainingToInternalValueDetector` over the GRF-capability, type-mapper
and encoding-text providers) are not among the sources.  Per spec §3 a
provider is `{detect(fieldName) -> (convertFunc, found)}`. -/
abbrev ConversionProvider := String → Option ConvertFunc

/-- Modelled from the spec: the chain "Providers are tried in a fixed
priority order; first match wins; if none match, pass-through (identity)
conversion is used". -/
def ChainingDetect : List ConversionProvider → String → ConvertFunc
  | [], _ => ConvertPassThrough
  | p :: rest, fieldName =>
    match p fieldName with
    | some cf => cf
    | none => ChainingDetect rest fieldName

/-- Modelled from the spec: the representation-side detector chain
assembled in `WithModelFields` (model.go lines 109-113), in source
order: GRF-representable capability, then the type-mapper table, then
the encoding-text-marshaler fallback. -/
def toRepresentationFuncDetector (grfRepresentable typeMapper textMarshaler :
    ConversionProvider) : String → ConvertFunc :=
  ChainingDetect [grfRepresentable, typeMapper, textMarshaler]

/-- Modelled from the spec: the internal-value-side detector chain
assembled in `WithModelFields` (model.go lines 115-119), in source
order: GRF-parsable capability, then the type-mapper table, then the
encoding-text-unmarshaler fallback. -/
def toInternalValueFuncDetector (grfParsable typeMapper textUnmarshaler :
    ConversionProvider) : String → ConvertFunc :=
  ChainingDetect [grfParsable, typeMapper, textUnmarshaler]

/-- `serializers.fieldSettings` (model.go lines 231-240): the reflected
capabilities of one attribute type.  The reflection carried out by
`getFieldSettings` has no shallow embedding, so the record additionally
carries the behaviour of the type's `UnmarshalText` / `MarshalText`
methods as functions. -/
structure fieldSettings where
  isEncodingTextMarshaler : Bool
  isEncodingTextUnmarshaler : Bool
  unmarshalText : String → Except String Value
  marshalText : Value → Except String String

/-- `DecodeFromStringOrPassthrough` (model.go lines 190-211), given the
(non-nil) `fieldSettings` of the field: a string input is parsed with
`UnmarshalText` when the type is an `encoding.TextUnmarshaler` and
passed through otherwise; a non-string input is always passed through. -/
def DecodeFromStringOrPassthrough (settings : fieldSettings) : ConvertFunc :=
  fun v =>
    match v with
    | Value.vStr vStr =>
      if settings.isEncodingTextUnmarshaler then
        settings.unmarshalText vStr
      else
        ConvertPassThrough v
    | _ => ConvertPassThrough v

/-- `EncodeToStringOrPassthrough` (model.go lines 213-229), given the
(non-nil) `fieldSettings` of the field: marshal to string when the type
is an `encoding.TextMarshaler`, else pass through. -/
def EncodeToStringOrPassthrough (settings : fieldSettings) : ConvertFunc :=
  fun v =>
    if settings.isEncodingTextMarshaler then
      match settings.marshalText v with
      | Except.error e => Except.error e
      | Except.ok marshalledBytes => Except.ok (Value.vStr marshalledBytes)
    else
      ConvertPassThrough v

/-- `raw` contains no key whose field lookup succeeds, is writable and
whose conversion function fails on `raw` — i.e. key `k` cannot trigger
the early conversion-error return of `ToInternalValue`. -/
def convOkAt (s : ModelSerializer) (raw : WireMap) (k : String) : Bool :=
  match findField s k with
  | none => true
  | some f =>
    if f.Writable then
      match f.internalValueFunc raw k with
      | Except.ok _ => true
      | Except.error _ => false
    else true

/-- Key `k` is unknown to the registry (would be superfluous). -/
def unknownKey (s : ModelSerializer) (k : String) : Bool :=
  (findField s k).isNone

/-- Field `f`'s representation conversion succeeds on `intVal`. -/
def repOkAt (intVal : WireMap) (f : Field) : Bool :=
  match f.representationFunc intVal f.Name with
  | Except.ok _ => true
  | Except.error _ => false

/-- The serializer `s` with the `toInternalValue` conversion of the
field registered under `k` (if any) replaced by `g`; used to express
that a conversion function is never invoked. -/
def withConvAt (s : ModelSerializer) (k : String) (g : InternalValueFunc) : ModelSerializer :=
  ⟨s.Fields.map fun f => if f.Name = k then f.WithInternalValueFunc g else f⟩

/-- The entries `ToRepresentation` emits for a field list, in registry
order (specification of the loop on the error-free path). -/
def repEntries (intVal : WireMap) : List Field → WireMap
  | [] => []
  | f :: rest =>
    if f.Readable then
      match f.representationFunc intVal f.Name with
      | Except.ok v => (f.Name, v) :: repEntries intVal rest
      | Except.error _ => repEntries intVal rest
    else
      repEntries intVal rest

/-! Concrete serializers and inputs used by counterexamples and
witnesses; field names follow the `Person` example model (`id`, `name`). -/

/-- A conversion function that always fails. -/
def boomConv : ConvertFunc := fun _ => Except.error "boom"

/-- Pass-through `id` field. -/
def idField : Field := NewField "id"

/-- Pass-through `name` field. -/
def nameField : Field := NewField "name"

/-- `name` field whose input conversion always fails. -/
def nameBoomField : Field :=
  (NewField "name").WithInternalValueFunc (ConvertFuncToInternalValueFuncAdapter boomConv)

/-- `a` field whose input conversion always fails. -/
def aBoomField : Field :=
  (NewField "a").WithInternalValueFunc (ConvertFuncToInternalValueFuncAdapter boomConv)

/-- `b` field whose input conversion always fails. -/
def bBoomField : Field :=
  (NewField "b").WithInternalValueFunc (ConvertFuncToInternalValueFuncAdapter boomConv)

/-- Read-only `id` field (`Writable := false`). -/
def roIdField : Field := { NewField "id" with Writable := false }

/-- Write-only `secret` field (`Readable := false`). -/
def hiddenSecretField : Field := { NewField "secret" with Readable := false }

/-- `name` field whose representation conversion always fails. -/
def reprBoomField : Field :=
  (NewField "name").WithRepresentationFunc (ConvertFuncToRepresentationFuncAdapter boomConv)

/-- The scenario wire map `{"name":"John","extra":"x"}`. -/
def rawJohnExtra : WireMap := [("name", Value.vStr "John"), ("extra", Value.vStr "x")]

/-- Registry `{id, name}` where `name`'s input conversion fails. -/
def serIdNameBoom : ModelSerializer := ⟨[idField, nameBoomField]⟩

/-- Registry `{id, name}` with pass-through conversions. -/
def serIdName : ModelSerializer := ⟨[idField, nameField]⟩

/-- Registry `{a, b}` where both input conversions fail. -/
def serABBoom : ModelSerializer := ⟨[aBoomField, bBoomField]⟩

/-- Wire map with both `a` and `b` present. -/
def rawAB : WireMap := [("a", Value.vInt 1), ("b", Value.vInt 2)]

/-- Registry with a read-only `id` and a writable `name`. -/
def serRoIdName : ModelSerializer := ⟨[roIdField, nameField]⟩

/-- Wire map with both `id` and `name` present. -/
def rawIdName : WireMap := [("id", Value.vInt 7), ("name", Value.vStr "John")]

/-- Registry with a readable `id` and a non-readable `secret`. -/
def serIdSecret : ModelSerializer := ⟨[idField, hiddenSecretField]⟩

/-- Internal value carrying both `id` and `secret`. -/
def intValIdSecret : WireMap := [("id", Value.vInt 1), ("secret", Value.vStr "s")]

/-- Registry with `id` and a `name` whose representation fails. -/
def serIdReprBoom : ModelSerializer := ⟨[idField, reprBoomField]⟩

/-- Internal value carrying only `id`. -/
def intValIdOnly : WireMap := [("id", Value.vInt 1)]

/-- Internal value carrying only `name` (so `id` is missing). -/
def intValNameOnly : WireMap := [("name", Value.vStr "John")]

/-- A conversion provider that never detects a conversion. -/
def noneProvider : ConversionProvider := fun _ => none

/-- A `FieldTypeMapper` whose detection fails for every type. -/
def failFtm : FieldTypeMapper :=
  ⟨fun _ => Except.error "no mapping", fun _ => Except.error "no mapping"⟩

/-- Concrete `fieldSettings` of a text-unmarshaler attribute type. -/
def unmarshalerSettings : fieldSettings :=
  { isEncodingTextMarshaler := true
    isEncodingTextUnmarshaler := true
    unmarshalText := fun str => Except.ok (Value.vStr str)
    marshalText := fun _ => Except.ok "2024-01-01" }

lemma lookupList_map_self {α : Type} (xs : List String) (g : String → α) (k : String) :
    lookupList (xs.map fun j => (j, g j)) k = if k ∈ xs then some (g k) else none := by
  induction xs with
  | nil => simp [lookupList]
  | cons j rest ih =>
    by_cases h : j = k
    · subst h
      simp [lookupList]
    · simp [lookupList, h, ih, Ne.symm h]

lemma lookupList_eq_none_iff {α : Type} (xs : List (String × α)) (k : String) :
    lookupList xs k = none ↔ ∀ p ∈ xs, p.1 ≠ k := by
  induction xs with
  | nil => simp [lookupList]
  | cons p rest ih =>
    obtain ⟨k₁, v⟩ := p
    by_cases h : k₁ = k
    · subst h
      simp [lookupList]
    · simp [lookupList, h, ih]

/-- When no key of `keys` triggers the early conversion-error return,
the loop of `ToInternalValue` runs to completion and its outcome is
decided by the accumulated superfluous keys alone. -/
lemma ToInternalValueLoop_all_ok (s : ModelSerializer) (raw : WireMap) :
    ∀ keys : List String, (∀ k ∈ keys, convOkAt s raw k = true) → ∀ acc sup,
    ∃ acc₂, ToInternalValueLoop s raw keys acc sup =
      if (sup ++ keys.filter fun k => unknownKey s k).isEmpty then Except.ok acc₂
      else Except.error ⟨(sup ++ keys.filter fun k => unknownKey s k).map
        fun k => (k, [unknownFieldMsg k (existingFieldNames s)])⟩ := by
  intro keys
  induction keys with
  | nil =>
    intro _ acc sup
    exact ⟨acc, by simp [ToInternalValueLoop]⟩
  | cons k rest ih =>
    intro hok acc sup
    have hk := hok k (by simp)
    have hrest : ∀ j ∈ rest, convOkAt s raw j = true := fun j hj => hok j (by simp [hj])
    cases hfound : findField s k with
    | none =>
      obtain ⟨acc₂, h⟩ := ih hrest acc (sup ++ [k])
      refine ⟨acc₂, ?_⟩
      have hu : unknownKey s k = true := by simp [unknownKey, hfound]
      rw [ToInternalValueLoop, hfound, h]
      simp [List.filter_cons, hu]
    | some f =>
      have hu : unknownKey s k = false := by simp [unknownKey, hfound]
      by_cases hw : f.Writable
      · cases hconv : f.internalValueFunc raw k with
        | error e =>
          exfalso
          rw [convOkAt, hfound] at hk
          simp [hw, hconv] at hk
        | ok v =>
          obtain ⟨acc₂, h⟩ := ih hrest (acc ++ [(k, v)]) sup
          refine ⟨acc₂, ?_⟩
          rw [ToInternalValueLoop, hfound]
          simp only [hw, if_true, hconv]
          rw [h]
          simp [List.filter_cons, hu]
      · obtain ⟨acc₂, h⟩ := ih hrest acc sup
        refine ⟨acc₂, ?_⟩
        rw [ToInternalValueLoop, hfound]
        simp only [hw, if_false]
        rw [h]
        simp [List.filter_cons, hu]

/-- When the keys before `k` do not trigger the early return and `k` is
a known writable key whose conversion fails, the loop aborts at `k` with
a single-entry ValidationError. -/
lemma ToInternalValueLoop_first_failure (s : ModelSerializer) (raw : WireMap) :
    ∀ pre : List String, (∀ j ∈ pre, convOkAt s raw j = true) →
    ∀ (k : String) (f : Field) (msg : String) (rest : List String) (acc : WireMap)
      (sup : List String),
      findField s k = some f → f.Writable = true →
      f.internalValueFunc raw k = Except.error msg →
      ToInternalValueLoop s raw (pre ++ k :: rest) acc sup =
        Except.error ⟨[(k, [msg])]⟩ := by
  intro pre
  induction pre with
  | nil =>
    intro _ k f msg rest acc sup hfound hw hconv
    rw [List.nil_append, ToInternalValueLoop, hfound]
    simp only [hw, if_true, hconv]
  | cons j pre ih =>
    intro hok k f msg rest acc sup hfound hw hconv
    have hj := hok j (by simp)
    have hpre : ∀ i ∈ pre, convOkAt s raw i = true := fun i hi => hok i (by simp [hi])
    rw [List.cons_append]
    cases hjf : findField s j with
    | none =>
      rw [ToInternalValueLoop, hjf]
      exact ih hpre k f msg rest acc (sup ++ [j]) hfound hw hconv
    | some g =>
      by_cases hgw : g.Writable
      · cases hjconv : g.internalValueFunc raw j with
        | error e =>
          exfalso
          rw [convOkAt, hjf] at hj
          simp [hgw, hjconv] at hj
        | ok v =>
          rw [ToInternalValueLoop, hjf]
          simp only [hgw, if_true, hjconv]
          exact ih hpre k f msg rest (acc ++ [(j, v)]) sup hfound hw hconv
      · rw [ToInternalValueLoop, hjf]
        simp only [hgw, if_false]
        exact ih hpre k f msg rest acc sup hfound hw hconv

/-- C1 (amended): when the wire map contains at least one unknown key
and no known writable key's conversion function fails, `ToInternalValue`
returns a ValidationError whose field-error map is exactly one entry per
unknown key, so in particular every unknown key has an entry whose
message enumerates all currently-registered field names.  (The original
claim's parenthetical — that this also holds when a known writable key's
conversion fails — is refuted by
`toInternalValue_unknownKeys_counterexample`.) -/
theorem toInternalValue_unknownKeys_aggregated (s : ModelSerializer) (raw : WireMap)
    (hok : ∀ k ∈ raw.map Prod.fst, convOkAt s raw k = true)
    (hunk : ∃ k ∈ raw.map Prod.fst, unknownKey s k = true) :
    ∃ e, s.ToInternalValue raw = Except.error e ∧
      e.FieldErrors = ((raw.map Prod.fst).filter fun k => unknownKey s k).map
        (fun k => (k, [unknownFieldMsg k (existingFieldNames s)])) ∧
      ∀ k ∈ raw.map Prod.fst, unknownKey s k = true →
        lookupList e.FieldErrors k = some [unknownFieldMsg k (existingFieldNames s)] := by
  obtain ⟨k₀, hk₀, hk₀u⟩ := hunk
  obtain ⟨acc₂, h⟩ := ToInternalValueLoop_all_ok s raw (raw.map Prod.fst) hok [] []
  have hne : ¬ (([] : List String) ++ (raw.map Prod.fst).filter
      fun k => unknownKey s k).isEmpty = true := by
    simp only [List.nil_append, List.isEmpty_iff]
    intro hemp
    have : k₀ ∈ (raw.map Prod.fst).filter fun k => unknownKey s k :=
      List.mem_filter.mpr ⟨hk₀, hk₀u⟩
    rw [hemp] at this
    exact absurd this (List.not_mem_nil k₀)
  rw [ModelSerializer.ToInternalValue, h, if_neg hne]
  refine ⟨_, rfl, by simp, ?_⟩
  intro k hk hku
  have hmem : k ∈ (raw.map Prod.fst).filter fun j => unknownKey s j :=
    List.mem_filter.mpr ⟨hk, hku⟩
  simp only [List.nil_append]
  rw [lookupList_map_self, if_pos hmem]

/-- C1, counterexample to the original claim: on
`{"name": boom, "extra": "x"}` with registry `{id, name}` where `name`'s
conversion fails, `ToInternalValue` returns the single-entry conversion
ValidationError and the unknown key `extra` has no entry (in no Go map
iteration order does the unknown-key aggregation run, because the
conversion failure returns first whenever it is encountered and it is
always encountered before the loop ends). -/
theorem toInternalValue_unknownKeys_counterexample :
    serIdNameBoom.ToInternalValue rawJohnExtra =
      Except.error { FieldErrors := [("name", ["boom"])] } ∧
    unknownKey serIdNameBoom "extra" = true ∧
    lookupList [("name", ["boom"])] "extra" = (none : Option (List String)) :=
  ⟨rfl, rfl, rfl⟩

/-- C1, witness: the amended theorem applied to the registry `{id, name}`
with pass-through conversions and the scenario input
`{"name":"John","extra":"x"}`. -/
theorem toInternalValue_unknownKeys_witness :
    (∀ k ∈ rawJohnExtra.map Prod.fst, convOkAt serIdName rawJohnExtra k = true) ∧
    (∃ k ∈ rawJohnExtra.map Prod.fst, unknownKey serIdName k = true) ∧
    (∃ e, serIdName.ToInternalValue rawJohnExtra = Except.error e ∧
      e.FieldErrors = ((rawJohnExtra.map Prod.fst).filter
        fun k => unknownKey serIdName k).map
        (fun k => (k, [unknownFieldMsg k (existingFieldNames serIdName)])) ∧
      ∀ k ∈ rawJohnExtra.map Prod.fst, unknownKey serIdName k = true →
        lookupList e.FieldErrors k =
          some [unknownFieldMsg k (existingFieldNames serIdName)]) :=
  ⟨by decide, by decide,
    toInternalValue_unknownKeys_aggregated serIdName rawJohnExtra (by decide) (by decide)⟩

/-- C3 (amended): unknown-key errors are aggregated (see C1), but
conversion errors are not: the first known writable key (in iteration
order) whose conversion fails aborts `ToInternalValue` with a
ValidationError containing exactly that one field's entry; later failing
fields and unknown keys get no entry. -/
theorem toInternalValue_first_conversion_error_wins (s : ModelSerializer) (raw : WireMap)
    (pre rest : List String) (k : String) (f : Field) (msg : String)
    (hkeys : raw.map Prod.fst = pre ++ k :: rest)
    (hpre : ∀ j ∈ pre, convOkAt s raw j = true)
    (hfound : findField s k = some f) (hw : f.Writable = true)
    (hconv : f.internalValueFunc raw k = Except.error msg) :
    s.ToInternalValue raw = Except.error { FieldErrors := [(k, [msg])] } := by
  rw [ModelSerializer.ToInternalValue, hkeys]
  exact ToInternalValueLoop_first_failure s raw pre hpre k f msg rest [] [] hfound hw hconv

/-- C3, counterexample to the original claim: with registry `{a, b}`
where both conversions fail and input containing both keys, the returned
ValidationError has an entry only for the first failing field; `b`'s
error is not aggregated (and in no Go map iteration order would both
fields get entries — whichever failing key is reached first returns
alone). -/
theorem toInternalValue_aggregation_counterexample :
    serABBoom.ToInternalValue rawAB =
      Except.error { FieldErrors := [("a", ["boom"])] } ∧
    (∃ f, findField serABBoom "b" = some f ∧ f.Writable = true ∧
      f.internalValueFunc rawAB "b" = Except.error "boom") ∧
    lookupList [("a", ["boom"])] "b" = (none : Option (List String)) :=
  ⟨rfl, ⟨bBoomField, rfl, rfl, rfl⟩, rfl⟩

/-- C3, witness: the amended theorem applied to the registry `{a, b}`
with both conversions failing and both keys present. -/
theorem toInternalValue_first_conversion_error_wins_witness :
    findField serABBoom "a" = some aBoomField ∧
    aBoomField.Writable = true ∧
    aBoomField.internalValueFunc rawAB "a" = Except.error "boom" ∧
    serABBoom.ToInternalValue rawAB =
      Except.error { FieldErrors := [("a", ["boom"])] } :=
  ⟨rfl, rfl, rfl,
    toInternalValue_first_conversion_error_wins serABBoom rawAB [] ["b"] "a" aBoomField
      "boom" rfl (by simp) rfl rfl rfl⟩

/-- C4: for the identity pass-through conversion pair, feeding a value
supplied under a field's name through the field's `toInternalValue`
adapter and then through its `toRepresentation` adapter returns the
value unchanged: `toRepresentation(toInternalValue(x)) == x`. -/
theorem passthrough_roundTrip (name : String) (x v : Value)
    (h : ConvertFuncToInternalValueFuncAdapter ConvertPassThrough [(name, x)] name =
      Except.ok v) :
    ConvertFuncToRepresentationFuncAdapter ConvertPassThrough [(name, v)] name =
      Except.ok x := by
  have hx : v = x := by
    simp [ConvertFuncToInternalValueFuncAdapter, ConvertPassThrough, lookupOrNil,
      lookupList] at h
    exact h.symm
  subst hx
  simp [ConvertFuncToRepresentationFuncAdapter, ConvertPassThrough, lookupOrNil, lookupList]

/-- C4, witness: the round trip on the scenario value `"John"` under the
field name `name`. -/
theorem passthrough_roundTrip_witness :
    ConvertFuncToRepresentationFuncAdapter ConvertPassThrough
      [("name", Value.vStr "John")] "name" = Except.ok (Value.vStr "John") :=
  passthrough_roundTrip "name" (Value.vStr "John") (Value.vStr "John") rfl

/-- C8: for a field whose attribute type is an `encoding.TextUnmarshaler`,
the conversion returned by `DecodeFromStringOrPassthrough` parses string
inputs via `UnmarshalText` and returns every non-string input unchanged
without error. -/
theorem decodeFromString_unmarshal_or_passthrough (settings : fieldSettings)
    (h : settings.isEncodingTextUnmarshaler = true) :
    (∀ str, DecodeFromStringOrPassthrough settings (Value.vStr str) =
      settings.unmarshalText str) ∧
    (∀ v : Value, (∀ str, v ≠ Value.vStr str) →
      DecodeFromStringOrPassthrough settings v = Except.ok v) := by
  constructor
  · intro str
    simp [DecodeFromStringOrPassthrough, h]
  · intro v hv
    cases v with
    | vStr str => exact absurd rfl (hv str)
    | vNil => simp [DecodeFromStringOrPassthrough, ConvertPassThrough]
    | vInt i => simp [DecodeFromStringOrPassthrough, ConvertPassThrough]
    | vBool b => simp [DecodeFromStringOrPassthrough, ConvertPassThrough]

/-- C8, witness: concrete text-unmarshaler settings, the scenario string
`"2024-01-01"` and a non-string input. -/
theorem decodeFromString_unmarshal_or_passthrough_witness :
    unmarshalerSettings.isEncodingTextUnmarshaler = true ∧
    DecodeFromStringOrPassthrough unmarshalerSettings (Value.vStr "2024-01-01") =
      unmarshalerSettings.unmarshalText "2024-01-01" ∧
    DecodeFromStringOrPassthrough unmarshalerSettings (Value.vInt 5) =
      Except.ok (Value.vInt 5) :=
  ⟨rfl,
    (decodeFromString_unmarshal_or_passthrough unmarshalerSettings rfl).1 "2024-01-01",
    (decodeFromString_unmarshal_or_passthrough unmarshalerSettings rfl).2 (Value.vInt 5)
      (fun _ h => Value.noConfusion h)⟩

/-- C9: `WithField` (the lookup-then-update operation) on a name absent
from the field registry is the fatal outcome — never a silently ignored
no-op, and no updated registry is ever produced. -/
theorem withField_missing_name_fatal (s : ModelSerializer) (name : String)
    (updateFunc : Field → Field) (h : findField s name = none) :
    s.WithField name updateFunc = Except.error ⟨"Could not find field `" ++ name
      ++ "` on model when registering serializer field"⟩ ∧
    ∀ s₂, s.WithField name updateFunc ≠ Except.ok s₂ := by
  rw [ModelSerializer.WithField, h]
  exact ⟨rfl, fun s₂ hc => Except.noConfusion hc⟩

/-- C9, witness: updating the unregistered name `nope` on the `{id,
name}` registry. -/
theorem withField_missing_name_fatal_witness :
    findField serIdName "nope" = none ∧
    serIdName.WithField "nope" (fun f => f) = Except.error ⟨"Could not find field `nope`"
      ++ " on model when registering serializer field"⟩ ∧
    serIdName.WithField "nope" (fun f => f) ≠ Except.ok serIdName :=
  ⟨rfl,
    (withField_missing_name_fatal serIdName "nope" (fun f => f) rfl).1,
    (withField_missing_name_fatal serIdName "nope" (fun f => f) rfl).2 serIdName⟩

/-- C2: the detection chain consults the providers in the fixed
registration order (explicit GRF capability, then the type-mapper table,
then the encoding-text fallback); the first provider that detects a
conversion wins; when none does, the identity pass-through conversion is
assigned — and in `WithExistingFields`, a type-mapper detection failure
for a known attribute does not abort registration fatally: the call
succeeds and the field is registered with the pass-through conversion
pair (the failure is only logged). -/
theorem providerChain_order_and_passthrough_degradation
    (p₁ p₂ p₃ : ConversionProvider) (n : String) (ftm : FieldTypeMapper)
    (attrs : List (String × String)) (field t e₁ e₂ : String) :
    (∀ cf, p₁ n = some cf → toInternalValueFuncDetector p₁ p₂ p₃ n = cf) ∧
    (∀ cf, p₁ n = none → p₂ n = some cf → toInternalValueFuncDetector p₁ p₂ p₃ n = cf) ∧
    (∀ cf, p₁ n = none → p₂ n = none → p₃ n = some cf →
      toInternalValueFuncDetector p₁ p₂ p₃ n = cf) ∧
    (p₁ n = none → p₂ n = none → p₃ n = none →
      toInternalValueFuncDetector p₁ p₂ p₃ n = ConvertPassThrough) ∧
    (lookupList attrs field = some t → ftm.ToRepresentation t = Except.error e₁ →
      ftm.ToInternalValue t = Except.error e₂ →
      ModelSerializer.WithExistingFields ftm attrs [field] [] =
        Except.ok ⟨[((NewField field).WithRepresentationFunc
          (ConvertFuncToRepresentationFuncAdapter ConvertPassThrough)).WithInternalValueFunc
          (ConvertFuncToInternalValueFuncAdapter ConvertPassThrough)]⟩) := by
  refine ⟨?_, ?_, ?_, ?_, ?_⟩
  · intro cf h₁
    simp [toInternalValueFuncDetector, ChainingDetect, h₁]
  · intro cf h₁ h₂
    simp [toInternalValueFuncDetector, ChainingDetect, h₁, h₂]
  · intro cf h₁ h₂ h₃
    simp [toInternalValueFuncDetector, ChainingDetect, h₁, h₂, h₃]
  · intro h₁ h₂ h₃
    simp [toInternalValueFuncDetector, ChainingDetect, h₁, h₂, h₃]
  · intro ht h₁ h₂
    rw [ModelSerializer.WithExistingFields]
    simp [WithExistingFieldsLoop, ht, h₁, h₂]

/-- C2, witness: three providers that all fail to detect degrade to the
pass-through conversion, and `WithExistingFields` over a type mapper
that fails for `uint` registers the field non-fatally with the
pass-through pair. -/
theorem providerChain_witness :
    toInternalValueFuncDetector noneProvider noneProvider noneProvider "id" =
      ConvertPassThrough ∧
    ModelSerializer.WithExistingFields failFtm [("id", "uint")] ["id"] [] =
      Except.ok ⟨[((NewField "id").WithRepresentationFunc
        (ConvertFuncToRepresentationFuncAdapter ConvertPassThrough)).WithInternalValueFunc
        (ConvertFuncToInternalValueFuncAdapter ConvertPassThrough)]⟩ :=
  ⟨(providerChain_order_and_passthrough_degradation noneProvider noneProvider noneProvider
      "id" failFtm [("id", "uint")] "id" "uint" "no mapping" "no mapping").2.2.2.1
      rfl rfl rfl,
    (providerChain_order_and_passthrough_degradation noneProvider noneProvider noneProvider
      "id" failFtm [("id", "uint")] "id" "uint" "no mapping" "no mapping").2.2.2.2
      rfl rfl rfl⟩

/-- Every entry of a successful `ToInternalValue` loop result either was
already accumulated or belongs to a known writable field. -/
lemma ToInternalValueLoop_ok_mem (s : ModelSerializer) (raw : WireMap) :
    ∀ (keys : List String) (acc : WireMap) (sup : List String) (m : WireMap),
    ToInternalValueLoop s raw keys acc sup = Except.ok m →
    ∀ p ∈ m, p ∈ acc ∨ ∃ f, findField s p.1 = some f ∧ f.Writable = true := by
  intro keys
  induction keys with
  | nil =>
    intro acc sup m h p hp
    rw [ToInternalValueLoop] at h
    by_cases hs : sup.isEmpty
    · rw [if_pos hs] at h
      cases h
      exact Or.inl hp
    · rw [if_neg hs] at h
      exact Except.noConfusion h
  | cons k rest ih =>
    intro acc sup m h p hp
    rw [ToInternalValueLoop] at h
    cases hfound : findField s k with
    | none =>
      simp only [hfound] at h
      exact ih acc (sup ++ [k]) m h p hp
    | some f =>
      simp only [hfound] at h
      by_cases hw : f.Writable
      · cases hconv : f.internalValueFunc raw k with
        | error e =>
          simp only [hw, if_true, hconv] at h
          exact Except.noConfusion h
        | ok v =>
          simp only [hw, if_true, hconv] at h
          rcases ih (acc ++ [(k, v)]) sup m h p hp with hacc | hwf
          · rcases List.mem_append.mp hacc with h₁ | h₂
            · exact Or.inl h₁
            · right
              have hpv : p = (k, v) := by simpa using h₂
              exact ⟨f, by rw [hpv]; exact hfound, hw⟩
          · exact Or.inr hwf
      · simp only [hw, if_false] at h
        exact ih acc sup m h p hp

/-- Every field-error entry of a failing `ToInternalValue` loop result
is keyed by an already-superfluous key, an unknown key, or a known
writable key. -/
lemma ToInternalValueLoop_error_mem (s : ModelSerializer) (raw : WireMap) :
    ∀ (keys : List String) (acc : WireMap) (sup : List String) (e : ValidationError),
    ToInternalValueLoop s raw keys acc sup = Except.error e →
    ∀ q ∈ e.FieldErrors, q.1 ∈ sup ∨ findField s q.1 = none ∨
      ∃ f, findField s q.1 = some f ∧ f.Writable = true := by
  intro keys
  induction keys with
  | nil =>
    intro acc sup e h q hq
    rw [ToInternalValueLoop] at h
    by_cases hs : sup.isEmpty
    · rw [if_pos hs] at h
      exact Except.noConfusion h
    · rw [if_neg hs] at h
      cases h
      obtain ⟨j, hj, hje⟩ := List.mem_map.mp hq
      left
      rw [← hje]
      exact hj
  | cons k rest ih =>
    intro acc sup e h q hq
    rw [ToInternalValueLoop] at h
    cases hfound : findField s k with
    | none =>
      simp only [hfound] at h
      rcases ih acc (sup ++ [k]) e h q hq with hsup | hrest
      · rcases List.mem_append.mp hsup with h₁ | h₂
        · exact Or.inl h₁
        · have : q.1 = k := by simpa using h₂
          exact Or.inr (Or.inl (this ▸ hfound))
      · exact Or.inr hrest
    | some f =>
      simp only [hfound] at h
      by_cases hw : f.Writable
      · cases hconv : f.internalValueFunc raw k with
        | error msg =>
          simp only [hw, if_true, hconv] at h
          cases h
          have : q = (k, [msg]) := by simpa using hq
          exact Or.inr (Or.inr ⟨f, by rw [this]; exact hfound, hw⟩)
        | ok v =>
          simp only [hw, if_true, hconv] at h
          exact ih (acc ++ [(k, v)]) sup e h q hq
      · simp only [hw, if_false] at h
        exact ih acc sup e h q hq

/-- A found field carries the key it was looked up under. -/
lemma findFieldList_name (k : String) :
    ∀ (l : List Field) (f : Field), findFieldList k l = some f → f.Name = k := by
  intro l
  induction l with
  | nil =>
    intro f h
    rw [findFieldList] at h
    exact Option.noConfusion h
  | cons g rest ih =>
    intro f h
    rw [findFieldList] at h
    by_cases hg : g.Name = k
    · rw [if_pos hg] at h
      cases h
      exact hg
    · rw [if_neg hg] at h
      exact ih f h

/-- Field lookup commutes with a name-preserving transformation of the
registry. -/
lemma findFieldList_map_name_preserved (h : Field → Field)
    (hname : ∀ f, (h f).Name = f.Name) (k : String) :
    ∀ l, findFieldList k (l.map h) = (findFieldList k l).map h := by
  intro l
  induction l with
  | nil => simp [findFieldList]
  | cons g rest ih =>
    rw [List.map_cons, findFieldList, findFieldList, hname]
    by_cases hg : g.Name = k
    · rw [if_pos hg, if_pos hg]
      rfl
    · rw [if_neg hg, if_neg hg]
      exact ih

lemma withConvAt_modifier_name (k : String) (g : InternalValueFunc) (f : Field) :
    (if f.Name = k then f.WithInternalValueFunc g else f).Name = f.Name := by
  by_cases h : f.Name = k <;> simp [h, Field.WithInternalValueFunc]

lemma findField_withConvAt (s : ModelSerializer) (k : String) (g : InternalValueFunc)
    (j : String) :
    findField (withConvAt s k g) j =
      (findField s j).map fun f => if f.Name = k then f.WithInternalValueFunc g else f := by
  rw [findField, findField, withConvAt]
  exact findFieldList_map_name_preserved _ (withConvAt_modifier_name k g) j s.Fields

lemma existingFieldNames_withConvAt (s : ModelSerializer) (k : String)
    (g : InternalValueFunc) :
    existingFieldNames (withConvAt s k g) = existingFieldNames s := by
  rw [existingFieldNames, existingFieldNames, withConvAt]
  rw [List.map_map]
  have hcomp : Field.Name ∘ (fun f => if f.Name = k then f.WithInternalValueFunc g else f)
      = Field.Name :=
    funext fun f => withConvAt_modifier_name k g f
  rw [hcomp]

/-- Replacing the input conversion of a non-writable field changes
nothing about the `ToInternalValue` loop: that conversion is never
invoked. -/
lemma ToInternalValueLoop_withConvAt (s : ModelSerializer) (raw : WireMap) (k : String)
    (f : Field) (g : InternalValueFunc)
    (hfound : findField s k = some f) (hw : f.Writable = false) :
    ∀ (keys : List String) (acc : WireMap) (sup : List String),
      ToInternalValueLoop (withConvAt s k g) raw keys acc sup =
        ToInternalValueLoop s raw keys acc sup := by
  intro keys
  induction keys with
  | nil =>
    intro acc sup
    rw [ToInternalValueLoop, ToInternalValueLoop]
    simp [existingFieldNames_withConvAt]
  | cons j rest ih =>
    intro acc sup
    rw [ToInternalValueLoop, ToInternalValueLoop, findField_withConvAt]
    cases hjf : findField s j with
    | none =>
      simp only [hjf, Option.map_none']
      exact ih acc (sup ++ [j])
    | some fj =>
      simp only [hjf, Option.map_some']
      have hfjname : fj.Name = j := findFieldList_name j s.Fields fj hjf
      by_cases hjk : fj.Name = k
      · have hjeq : j = k := hfjname.symm.trans hjk
        subst hjeq
        have hfeq : fj = f := by
          rw [findField] at hfound hjf
          rw [hjf] at hfound
          exact Option.some.inj hfound
        subst hfeq
        simp only [hjk, if_true]
        have hw₂ : (fj.WithInternalValueFunc g).Writable = false := by
          simpa [Field.WithInternalValueFunc] using hw
        simp only [hw₂, hw, if_false]
        exact ih acc sup
      · simp only [hjk, if_false]
        by_cases hjw : fj.Writable
        · cases hjconv : fj.internalValueFunc raw j with
          | error e => simp only [hjw, if_true, hjconv]
          | ok v =>
            simp only [hjw, if_true, hjconv]
            exact ih (acc ++ [(j, v)]) sup
        · simp only [hjw, if_false]
          exact ih acc sup

/-- C5: for a registered non-writable field whose name occurs in the
input wire map, `ToInternalValue` reports no error for that key, the key
is absent from any returned Internal Value, and the field's conversion
function is never applied (replacing it changes nothing). -/
theorem nonWritable_field_skipped (s : ModelSerializer) (raw : WireMap) (k : String)
    (f : Field) (hfound : findField s k = some f) (hw : f.Writable = false)
    (_hmem : k ∈ raw.map Prod.fst) :
    (∀ m, s.ToInternalValue raw = Except.ok m → lookupList m k = none) ∧
    (∀ e, s.ToInternalValue raw = Except.error e → lookupList e.FieldErrors k = none) ∧
    (∀ g, (withConvAt s k g).ToInternalValue raw = s.ToInternalValue raw) := by
  refine ⟨?_, ?_, ?_⟩
  · intro m h
    rw [ModelSerializer.ToInternalValue] at h
    rw [lookupList_eq_none_iff]
    intro p hp hpk
    rcases ToInternalValueLoop_ok_mem s raw _ _ _ _ h p hp with hacc | ⟨f₂, hf₂, hw₂⟩
    · exact absurd hacc (List.not_mem_nil p)
    · rw [hpk, hfound] at hf₂
      cases hf₂
      rw [hw] at hw₂
      exact Bool.noConfusion hw₂
  · intro e h
    rw [ModelSerializer.ToInternalValue] at h
    rw [lookupList_eq_none_iff]
    intro q hq hqk
    rcases ToInternalValueLoop_error_mem s raw _ _ _ _ h q hq with hsup | hnone | ⟨f₂, hf₂, hw₂⟩
    · exact absurd hsup (List.not_mem_nil q.1)
    · rw [hqk, hfound] at hnone
      exact Option.noConfusion hnone
    · rw [hqk, hfound] at hf₂
      cases hf₂
      rw [hw] at hw₂
      exact Bool.noConfusion hw₂
  · intro g
    rw [ModelSerializer.ToInternalValue, ModelSerializer.ToInternalValue]
    exact ToInternalValueLoop_withConvAt s raw k f g hfound hw _ [] []

/-- C5, witness: the read-only `id` field with input
`{"id":7,"name":"John"}`: no error entry for `id`, `id` absent from the
result, and swapping in an always-failing conversion changes nothing. -/
theorem nonWritable_field_skipped_witness :
    findField serRoIdName "id" = some roIdField ∧
    roIdField.Writable = false ∧
    lookupList [("name", Value.vStr "John")] "id" = (none : Option Value) ∧
    (withConvAt serRoIdName "id"
        (ConvertFuncToInternalValueFuncAdapter boomConv)).ToInternalValue rawIdName =
      serRoIdName.ToInternalValue rawIdName :=
  ⟨rfl, rfl,
    (nonWritable_field_skipped serRoIdName rawIdName "id" roIdField rfl rfl
      (by decide)).1 [("name", Value.vStr "John")] rfl,
    (nonWritable_field_skipped serRoIdName rawIdName "id" roIdField rfl rfl
      (by decide)).2.2 (ConvertFuncToInternalValueFuncAdapter boomConv)⟩

/-- Every entry of a successful `ToRepresentation` loop result either
was already accumulated or is keyed by the name of a readable registered
field. -/
lemma ToRepresentationLoop_ok_mem (intVal : WireMap) :
    ∀ (flds : List Field) (acc m : WireMap),
    ToRepresentationLoop intVal flds acc = Except.ok m →
    ∀ p ∈ m, p ∈ acc ∨ ∃ g ∈ flds, g.Name = p.1 ∧ g.Readable = true := by
  intro flds
  induction flds with
  | nil =>
    intro acc m h p hp
    rw [ToRepresentationLoop] at h
    cases h
    exact Or.inl hp
  | cons f rest ih =>
    intro acc m h p hp
    rw [ToRepresentationLoop] at h
    by_cases hr : f.Readable
    · cases hconv : f.representationFunc intVal f.Name with
      | error e =>
        simp only [hr, if_true, hconv] at h
        exact Except.noConfusion h
      | ok v =>
        simp only [hr, if_true, hconv] at h
        rcases ih (acc ++ [(f.Name, v)]) m h p hp with hacc | ⟨g, hg, hgn, hgr⟩
        · rcases List.mem_append.mp hacc with h₁ | h₂
          · exact Or.inl h₁
          · have hpv : p = (f.Name, v) := by simpa using h₂
            exact Or.inr ⟨f, by simp, by rw [hpv], hr⟩
        · exact Or.inr ⟨g, by simp [hg], hgn, hgr⟩
    · simp only [hr, if_false] at h
      rcases ih acc m h p hp with hacc | ⟨g, hg, hgn, hgr⟩
      · exact Or.inl hacc
      · exact Or.inr ⟨g, by simp [hg], hgn, hgr⟩

/-- C6: a registered non-readable field never appears in the wire map
produced by `ToRepresentation`, whatever the Internal Value contains. -/
theorem nonReadable_field_absent (s : ModelSerializer) (intVal : WireMap) (f : Field)
    (hmem : f ∈ s.Fields) (hr : f.Readable = false)
    (hnd : (s.Fields.map Field.Name).Nodup) :
    ∀ m, s.ToRepresentation intVal = Except.ok m → lookupList m f.Name = none := by
  intro m h
  rw [ModelSerializer.ToRepresentation] at h
  rw [lookupList_eq_none_iff]
  intro p hp hpk
  rcases ToRepresentationLoop_ok_mem intVal _ _ _ h p hp with hacc | ⟨g, hg, hgn, hgr⟩
  · exact absurd hacc (List.not_mem_nil p)
  · have hfg : g = f := List.inj_on_of_nodup_map hnd hg hmem (by rw [hgn, hpk])
    rw [hfg, hr] at hgr
    exact Bool.noConfusion hgr

/-- C6, witness: registry `{id, secret}` with `secret` non-readable and
an Internal Value carrying a `secret` value: the output has no `secret`
key. -/
theorem nonReadable_field_absent_witness :
    hiddenSecretField ∈ serIdSecret.Fields ∧
    hiddenSecretField.Readable = false ∧
    (serIdSecret.Fields.map Field.Name).Nodup ∧
    lookupList [("id", Value.vInt 1)] "secret" = (none : Option Value) :=
  ⟨by simp [serIdSecret], rfl, by decide,
    nonReadable_field_absent serIdSecret intValIdSecret hiddenSecretField
      (by simp [serIdSecret]) rfl (by decide) [("id", Value.vInt 1)] rfl⟩

/-- When the readable fields before `f` convert successfully and `f` is
readable with a failing representation conversion, the loop aborts at
`f` with the wrapped error. -/
lemma ToRepresentationLoop_first_error (intVal : WireMap) :
    ∀ pre : List Field, (∀ g ∈ pre, g.Readable = true → repOkAt intVal g = true) →
    ∀ (f : Field) (e : String) (post : List Field) (acc : WireMap),
      f.Readable = true → f.representationFunc intVal f.Name = Except.error e →
      ToRepresentationLoop intVal (pre ++ f :: post) acc =
        Except.error (representationFailMsg f.Name e) := by
  intro pre
  induction pre with
  | nil =>
    intro _ f e post acc hr he
    rw [List.nil_append, ToRepresentationLoop]
    simp only [hr, if_true, he]
  | cons g pre ih =>
    intro hok f e post acc hr he
    have hg := hok g (by simp)
    have hpre : ∀ i ∈ pre, i.Readable = true → repOkAt intVal i = true :=
      fun i hi => hok i (by simp [hi])
    rw [List.cons_append, ToRepresentationLoop]
    by_cases hgr : g.Readable
    · cases hgconv : g.representationFunc intVal g.Name with
      | error e₂ =>
        exfalso
        have := hg hgr
        rw [repOkAt, hgconv] at this
        exact Bool.noConfusion this
      | ok v =>
        simp only [hgr, if_true, hgconv]
        exact ih hpre f e post (acc ++ [(g.Name, v)]) hr he
    · simp only [hgr, if_false]
      exact ih hpre f e post acc hr he

/-- C7: when a readable field's representation conversion fails,
`ToRepresentation` returns no wire map but the single wrapped error
naming the first failing field (in registry iteration order); errors are
never aggregated. -/
theorem toRepresentation_first_error_wins (s : ModelSerializer) (intVal : WireMap)
    (pre post : List Field) (f : Field) (e : String)
    (hflds : s.Fields = pre ++ f :: post)
    (hpre : ∀ g ∈ pre, g.Readable = true → repOkAt intVal g = true)
    (hr : f.Readable = true)
    (he : f.representationFunc intVal f.Name = Except.error e) :
    s.ToRepresentation intVal = Except.error (representationFailMsg f.Name e) := by
  rw [ModelSerializer.ToRepresentation, hflds]
  exact ToRepresentationLoop_first_error intVal pre hpre f e post [] hr he

/-- C7, witness: registry `{id, name}` where `name`'s representation
conversion fails: the call returns exactly the wrapped error naming
`name`. -/
theorem toRepresentation_first_error_wins_witness :
    reprBoomField.Readable = true ∧
    reprBoomField.representationFunc intValIdOnly "name" = Except.error "boom" ∧
    serIdReprBoom.ToRepresentation intValIdOnly =
      Except.error "Failed to serialize field `name` to representation: boom" :=
  ⟨rfl, rfl,
    toRepresentation_first_error_wins serIdReprBoom intValIdOnly [idField] []
      reprBoomField "boom" rfl (by decide) rfl rfl⟩

/-- On the error-free path the `ToRepresentation` loop emits exactly
`repEntries`. -/
lemma ToRepresentationLoop_all_ok (intVal : WireMap) :
    ∀ (flds : List Field) (acc : WireMap),
    (∀ f ∈ flds, f.Readable = true → repOkAt intVal f = true) →
    ToRepresentationLoop intVal flds acc = Except.ok (acc ++ repEntries intVal flds) := by
  intro flds
  induction flds with
  | nil =>
    intro acc _
    rw [ToRepresentationLoop, repEntries]
    simp
  | cons f rest ih =>
    intro acc hok
    have hf := hok f (by simp)
    have hrest : ∀ i ∈ rest, i.Readable = true → repOkAt intVal i = true :=
      fun i hi => hok i (by simp [hi])
    rw [ToRepresentationLoop, repEntries]
    by_cases hr : f.Readable
    · cases hconv : f.representationFunc intVal f.Name with
      | error e =>
        exfalso
        have := hf hr
        rw [repOkAt, hconv] at this
        exact Bool.noConfusion this
      | ok v =>
        simp only [hr, if_true, hconv]
        rw [ih (acc ++ [(f.Name, v)]) hrest]
        simp
    · simp only [hr, if_false]
      exact ih acc hrest

/-- The keys of `repEntries` are exactly the names of the readable
fields, in order, when every readable conversion succeeds. -/
lemma repEntries_keys (intVal : WireMap) :
    ∀ flds : List Field, (∀ f ∈ flds, f.Readable = true → repOkAt intVal f = true) →
    (repEntries intVal flds).map Prod.fst =
      (flds.filter fun f => f.Readable).map Field.Name := by
  intro flds
  induction flds with
  | nil => intro _; rfl
  | cons f rest ih =>
    intro hok
    have hf := hok f (by simp)
    have hrest : ∀ i ∈ rest, i.Readable = true → repOkAt intVal i = true :=
      fun i hi => hok i (by simp [hi])
    rw [repEntries, List.filter_cons]
    by_cases hr : f.Readable
    · cases hconv : f.representationFunc intVal f.Name with
      | error e =>
        exfalso
        have := hf hr
        rw [repOkAt, hconv] at this
        exact Bool.noConfusion this
      | ok v =>
        simp only [hr, if_true, hconv, List.map_cons]
        rw [ih hrest]
    · simp only [hr, if_false]
      exact ih hrest

/-- Under name uniqueness, the `repEntries` entry of a readable field is
the successful output of its representation conversion. -/
lemma repEntries_lookup (intVal : WireMap) :
    ∀ (flds : List Field) (f : Field) (v : Value),
    (flds.map Field.Name).Nodup → f ∈ flds → f.Readable = true →
    f.representationFunc intVal f.Name = Except.ok v →
    lookupList (repEntries intVal flds) f.Name = some v := by
  intro flds
  induction flds with
  | nil =>
    intro f v _ hmem
    exact absurd hmem (List.not_mem_nil f)
  | cons g rest ih =>
    intro f v hnd hmem hr hconv
    have hnd₂ : (rest.map Field.Name).Nodup := by
      rw [List.map_cons] at hnd
      exact hnd.of_cons
    rcases List.mem_cons.mp hmem with hfg | hfr
    · subst hfg
      rw [repEntries]
      simp only [hr, if_true, hconv]
      rw [lookupList]
      simp
    · have hne : g.Name ≠ f.Name := by
        rw [List.map_cons] at hnd
        intro hc
        exact (List.nodup_cons.mp hnd).1 (hc ▸ List.mem_map_of_mem Field.Name hfr)
      rw [repEntries]
      by_cases hgr : g.Readable
      · cases hgconv : g.representationFunc intVal g.Name with
        | error e =>
          simp only [hgr, if_true, hgconv]
          exact ih f v hnd₂ hfr hr hconv
        | ok w =>
          simp only [hgr, if_true, hgconv]
          rw [lookupList, if_neg hne]
          exact ih f v hnd₂ hfr hr hconv
      · simp only [hgr, if_false]
        exact ih f v hnd₂ hfr hr hconv

/-- C10: when every readable field's conversion succeeds, the key set of
the wire map produced by `ToRepresentation` is exactly the readable
registered field names; under name uniqueness each readable field's
entry is its conversion output, and a field whose key is missing from
the Internal Value is converted from the nil value the lookup yields. -/
theorem toRepresentation_keys_exactly_readable (s : ModelSerializer) (intVal : WireMap)
    (hok : ∀ f ∈ s.Fields, f.Readable = true → repOkAt intVal f = true) :
    ∃ m, s.ToRepresentation intVal = Except.ok m ∧
      m.map Prod.fst = (s.Fields.filter fun f => f.Readable).map Field.Name ∧
      (∀ f ∈ s.Fields, ∀ v, (s.Fields.map Field.Name).Nodup → f.Readable = true →
        f.representationFunc intVal f.Name = Except.ok v →
        lookupList m f.Name = some v) ∧
      (∀ (cf : ConvertFunc) (name : String), lookupList intVal name = none →
        ConvertFuncToRepresentationFuncAdapter cf intVal name = cf Value.vNil) := by
  refine ⟨repEntries intVal s.Fields, ?_, ?_, ?_, ?_⟩
  · rw [ModelSerializer.ToRepresentation, ToRepresentationLoop_all_ok intVal s.Fields [] hok]
    rw [List.nil_append]
  · exact repEntries_keys intVal s.Fields hok
  · intro f hf v hnd hr hconv
    exact repEntries_lookup intVal s.Fields f v hnd hf hr hconv
  · intro cf name hnone
    rw [ConvertFuncToRepresentationFuncAdapter, lookupOrNil, hnone]
    rfl

/-- C10, witness: registry `{id, name}` (both readable, pass-through)
with Internal Value `{"name":"John"}`: the conclusion instantiated at
the concrete serializer, where the missing `id` key still yields an
output entry converted from nil. -/
theorem toRepresentation_keys_exactly_readable_witness :
    (∀ f ∈ serIdName.Fields, f.Readable = true → repOkAt intValNameOnly f = true) ∧
    (∃ m, serIdName.ToRepresentation intValNameOnly = Except.ok m ∧
      m.map Prod.fst = (serIdName.Fields.filter fun f => f.Readable).map Field.Name ∧
      (∀ f ∈ serIdName.Fields, ∀ v, (serIdName.Fields.map Field.Name).Nodup →
        f.Readable = true →
        f.representationFunc intValNameOnly f.Name = Except.ok v →
        lookupList m f.Name = some v) ∧
      (∀ (cf : ConvertFunc) (name : String), lookupList intValNameOnly name = none →
        ConvertFuncToRepresentationFuncAdapter cf intValNameOnly name = cf Value.vNil)) :=
  ⟨by decide,
    toRepresentation_keys_exactly_readable serIdName intValNameOnly (by decide)⟩

end Grf
